import Mathlib

/-!
# Verification of the block-chain demo (`src/blockchain.go`)

Shallow embedding of the Go program. Go strings and byte buffers are
modelled as `List Nat` (Go strings are byte slices; all delimiter bytes in
the program are ASCII). The SHA-256-then-hex digest used by
`calculateHash` is treated as an abstract parameter `H : Bytes → Bytes`,
following the specification, which treats the digest as a black box; every
theorem below is stated for an arbitrary `H` (hence in particular for the
real digest), and concrete instantiations use an explicit computable
function. Go's unbounded mining loop is modelled with explicit fuel
returning `Option`; Go's `strings.Repeat` panic on a negative count is
modelled in a separate `Except`-layer (`mineE`, `NewBlockchainE`).
-/

set_option autoImplicit false

namespace BCDemo

/-- Byte strings: a Go `string` / `[]byte` value, one `Nat` per byte. -/
abbrev Bytes := List Nat

/-- ASCII for the separator byte written by the encoder (Go literal `'|'`). -/
def sepByte : Nat := 124

/-- ASCII for the transaction terminator byte (Go literal `'\n'`). -/
def nlByte : Nat := 10

/-- A transaction (Go `Transaction` struct): from, to, amount. -/
structure Transaction where
  From : Bytes
  To : Bytes
  Amount : Int
deriving DecidableEq, Repr

/-- A block (Go `Block` struct), fields in source order. -/
structure Block where
  Index : Int
  Timestamp : Int
  PrevHash : Bytes
  Hash : Bytes
  Nonce : Int
  Transactions : List Transaction
deriving DecidableEq, Repr

/-- The chain container (Go `Blockchain` struct). The difficulty is kept as
a `Nat` here; the Go field is an `int`, and the behaviour on negative
values (a `strings.Repeat` panic inside `mine`) is modelled separately by
the `Except`-layer `NewBlockchainE` below. -/
structure Blockchain where
  Blocks : List Block
  Difficulty : Nat
deriving DecidableEq, Repr

/-- Decimal digits of `n`, most significant first, with explicit fuel so the
recursion is structural (empty on `n = 0`; fuel `n` always suffices). -/
def natBytesAux : Nat → Nat → Bytes
  | 0, _ => []
  | fuel + 1, n => if n = 0 then [] else natBytesAux fuel (n / 10) ++ [48 + n % 10]

/-- Decimal ASCII form of a natural number (Go `strconv` for values `≥ 0`). -/
def natBytes (n : Nat) : Bytes := if n = 0 then [48] else natBytesAux n n

/-- Decimal ASCII form of an integer, with a leading `'-'` (byte 45) when
negative: the output format of Go's `strconv.Itoa` / `strconv.FormatInt`. -/
def intBytes (i : Int) : Bytes := if i < 0 then 45 :: natBytes i.natAbs else natBytes i.toNat

/-- Go `serializeTransactions`: for each transaction in order, `From`,
`'|'`, `To`, `'|'`, decimal `Amount`, `'\n'`, concatenated. -/
def serializeTransactions (txs : List Transaction) : Bytes :=
  (txs.map fun tx => tx.From ++ [sepByte] ++ tx.To ++ [sepByte] ++ intBytes tx.Amount ++ [nlByte]).flatten

/-- The byte sequence hashed by Go `calculateHash`: decimal `Index`, `'|'`,
decimal `Timestamp`, `'|'`, `PrevHash`, `'|'`, the serialized transactions,
`'|'`, decimal `Nonce`. -/
def blockContent (b : Block) : Bytes :=
  intBytes b.Index ++ [sepByte] ++ intBytes b.Timestamp ++ [sepByte] ++ b.PrevHash ++ [sepByte]
    ++ serializeTransactions b.Transactions ++ [sepByte] ++ intBytes b.Nonce

/-- Go `calculateHash`: the digest `H` (hex-encoded SHA-256 in the source,
abstract here) applied to the block's canonical encoding. -/
def calculateHash (H : Bytes → Bytes) (b : Block) : Bytes := H (blockContent b)

/-- The difficulty target `strings.Repeat("0", d)`: `d` ASCII `'0'` bytes. -/
def zeroTarget (d : Nat) : Bytes := List.replicate d 48

/-- The body of Go `mine`'s loop: try nonces `nonce, nonce+1, ...` (at most
`fuel` of them), returning the first digest that starts with `target`
together with its nonce. -/
def mineAux (H : Bytes → Bytes) (b : Block) (target : Bytes) : Nat → Nat → Option (Bytes × Nat)
  | 0, _ => none
  | fuel + 1, nonce =>
    let h := calculateHash H { b with Nonce := (nonce : Int) }
    if target.isPrefixOf h then some (h, nonce) else mineAux H b target fuel (nonce + 1)

/-- Go `mine` (fuel-bounded): search nonces from `0` for a digest with at
least `difficulty` leading `'0'` bytes. -/
def mine (H : Bytes → Bytes) (b : Block) (difficulty : Nat) (fuel : Nat) : Option (Bytes × Nat) :=
  mineAux H b (zeroTarget difficulty) fuel 0

/-- The genesis block before mining (Go `newGenesisBlock` literal: index 0,
given timestamp, empty `PrevHash`, empty transactions; `Hash`/`Nonce` hold
Go's zero values). The source takes the timestamp from `time.Now()`; it is
an explicit parameter here. -/
def genesisCandidate (ts : Int) : Block :=
  { Index := 0, Timestamp := ts, PrevHash := [], Hash := [], Nonce := 0, Transactions := [] }

/-- Go `newGenesisBlock`: mine the genesis candidate and store its hash and
nonce. -/
def newGenesisBlock (H : Bytes → Bytes) (difficulty : Nat) (ts : Int) (fuel : Nat) : Option Block :=
  (mine H (genesisCandidate ts) difficulty fuel).map fun p =>
    { genesisCandidate ts with Hash := p.1, Nonce := (p.2 : Int) }

/-- Go `newBlock`: metadata for a block extending `prev` (not yet mined;
`Hash`/`Nonce` hold Go's zero values). -/
def newBlock (prev : Block) (txs : List Transaction) (ts : Int) : Block :=
  { Index := prev.Index + 1, Timestamp := ts, PrevHash := prev.Hash, Hash := [], Nonce := 0,
    Transactions := txs }

/-- Go `NewBlockchain`: a chain holding exactly the mined genesis block and
the difficulty. -/
def NewBlockchain (H : Bytes → Bytes) (difficulty : Nat) (ts : Int) (fuel : Nat) :
    Option Blockchain :=
  (newGenesisBlock H difficulty ts fuel).map fun g => { Blocks := [g], Difficulty := difficulty }

/-- Go `AddBlock`: build a candidate on the last block, mine it under the
chain's difficulty, store hash and nonce, and append it. The source indexes
`Blocks[len(Blocks)-1]`; on an empty chain (unreachable after creation)
this returns `none`. -/
def AddBlock (H : Bytes → Bytes) (bc : Blockchain) (txs : List Transaction) (ts : Int)
    (fuel : Nat) : Option Blockchain :=
  match bc.Blocks.getLast? with
  | none => none
  | some prev =>
    let b := newBlock prev txs ts
    (mine H b bc.Difficulty fuel).map fun p =>
      { bc with Blocks := bc.Blocks ++ [{ b with Hash := p.1, Nonce := (p.2 : Int) }] }

/-- The three per-block checks of Go `IsValid`'s loop body, in source
order: previous-hash link, digest recomputation, difficulty target. -/
def checkBlock (H : Bytes → Bytes) (d : Nat) (prev cur : Block) : Bool :=
  cur.PrevHash == prev.Hash && calculateHash H cur == cur.Hash
    && (zeroTarget d).isPrefixOf cur.Hash

/-- Go `IsValid`'s loop from index 1 on, carrying the preceding block. -/
def isValidFrom (H : Bytes → Bytes) (d : Nat) : Block → List Block → Bool
  | _, [] => true
  | prev, cur :: rest => checkBlock H d prev cur && isValidFrom H d cur rest

/-- Go `IsValid`: every block from index 1 on passes the three checks
against its predecessor; vacuously true with at most one block. -/
def IsValid (H : Bytes → Bytes) (bc : Blockchain) : Bool :=
  match bc.Blocks with
  | [] => true
  | g :: rest => isValidFrom H bc.Difficulty g rest

/-- A finite sequence of `AddBlock` calls, one per element of `steps`
(transactions and timestamp); `none` as soon as one runs out of fuel. -/
def addBlocks (H : Bytes → Bytes) (fuel : Nat) :
    Blockchain → List (List Transaction × Int) → Option Blockchain
  | bc, [] => some bc
  | bc, s :: rest =>
    match AddBlock H bc s.1 s.2 fuel with
    | none => none
    | some bc1 => addBlocks H fuel bc1 rest

/-- A ledger built purely from the public API: `NewBlockchain` followed by
one `AddBlock` per element of `steps`. -/
def buildChain (H : Bytes → Bytes) (difficulty : Nat) (ts0 : Int) (fuel : Nat)
    (steps : List (List Transaction × Int)) : Option Blockchain :=
  match NewBlockchain H difficulty ts0 fuel with
  | none => none
  | some bc => addBlocks H fuel bc steps

/-- Go's `strings.Repeat(s, count)`: panics (modelled as `Except.error` with
Go's panic message) when `count` is negative, otherwise concatenates
`count` copies of `s`. -/
def stringsRepeat (s : Bytes) (count : Int) : Except String Bytes :=
  if count < 0 then Except.error "strings: negative Repeat count"
  else Except.ok (List.flatten (List.replicate count.toNat s))

/-- Go `mine` with the difficulty as the raw `int`: the first statement
computes `strings.Repeat("0", difficulty)`, which panics on a negative
difficulty before any nonce is tried. -/
def mineE (H : Bytes → Bytes) (b : Block) (difficulty : Int) (fuel : Nat) :
    Except String (Option (Bytes × Nat)) :=
  match stringsRepeat [48] difficulty with
  | Except.error e => Except.error e
  | Except.ok target => Except.ok (mineAux H b target fuel 0)

/-- Go `newGenesisBlock` over the raw `int` difficulty, propagating the
panic from `mine`. -/
def newGenesisBlockE (H : Bytes → Bytes) (difficulty : Int) (ts : Int) (fuel : Nat) :
    Except String (Option Block) :=
  match mineE H (genesisCandidate ts) difficulty fuel with
  | Except.error e => Except.error e
  | Except.ok none => Except.ok none
  | Except.ok (some p) =>
    Except.ok (some { genesisCandidate ts with Hash := p.1, Nonce := (p.2 : Int) })

/-- Go `NewBlockchain` over the raw `int` difficulty: no guard of its own;
any failure is the panic propagated out of `mine`'s `strings.Repeat`. -/
def NewBlockchainE (H : Bytes → Bytes) (difficulty : Int) (ts : Int) (fuel : Nat) :
    Except String (Option Blockchain) :=
  match newGenesisBlockE H difficulty ts fuel with
  | Except.error e => Except.error e
  | Except.ok none => Except.ok none
  | Except.ok (some g) => Except.ok (some { Blocks := [g], Difficulty := difficulty.toNat })

/-- Default block used with `List.getD` when stating indexed properties. -/
def dummyBlock : Block :=
  { Index := 0, Timestamp := 0, PrevHash := [], Hash := [], Nonce := 0, Transactions := [] }

/-- Decimal reading of a digit string, used to invert `natBytes`. -/
def decVal (l : Bytes) : Nat := l.foldl (fun a c => a * 10 + (c - 48)) 0

/-- The validation pass exactly as the specification words it: iterate the
indices from 1 to the end and check, for each, the three conditions
against the block at the previous index. -/
def specValidate (H : Bytes → Bytes) (bc : Blockchain) : Bool :=
  (List.range' 1 (bc.Blocks.length - 1)).all fun i =>
    let cur := bc.Blocks.getD i dummyBlock
    let prev := bc.Blocks.getD (i - 1) dummyBlock
    cur.PrevHash == prev.Hash && calculateHash H cur == cur.Hash
      && (zeroTarget bc.Difficulty).isPrefixOf cur.Hash

/-- All consecutive pairs of `bs` pass the three per-block checks: the
index-free form of validity used to relate `IsValid` to the spec's
block-by-block description. -/
def pairChecks (H : Bytes → Bytes) (d : Nat) (bs : List Block) : Prop :=
  ∀ i, i + 1 < bs.length →
    checkBlock H d (bs.getD i dummyBlock) (bs.getD (i + 1) dummyBlock) = true

/-- The indices of `bs` count up from `k` in steps of one. -/
def indicesOK : Int → List Block → Bool
  | _, [] => true
  | k, b :: rest => (b.Index == k) && indicesOK (k + 1) rest

/-- Every block of `bs` records the hash of its predecessor (`prev` for the
first one) in `PrevHash`. -/
def linksOK : Block → List Block → Bool
  | _, [] => true
  | prev, b :: rest => (b.PrevHash == prev.Hash) && linksOK b rest

/-- Replace the transaction list of block `i`, leaving every other field
and block unchanged. -/
def tamperTxs (bc : Blockchain) (i : Nat) (txs : List Transaction) : Blockchain :=
  { bc with Blocks := bc.Blocks.set i { bc.Blocks.getD i dummyBlock with Transactions := txs } }

/-- A concrete digest instance (the identity on byte strings) used to
evaluate the theorems on explicit inputs; it is injective, so it exercises
every hypothesis the abstract digest needs. -/
def idDigest : Bytes → Bytes := fun b => b

/-- Concrete transaction `a|b -> c : 1` whose `From` contains the separator
byte. -/
def txA : Transaction := { From := [97, 124, 98], To := [99], Amount := 1 }

/-- Concrete transaction `a -> b|c : 1`: different from `txA`, but with the
same serialized bytes because the delimiters are not escaped. -/
def txB : Transaction := { From := [97], To := [98, 124, 99], Amount := 1 }

/-- Concrete delimiter-free transaction `a -> b : 10`. -/
def txW : Transaction := { From := [97], To := [98], Amount := 10 }

/-- Concrete two-block ledger built through the public API at difficulty 0
under `idDigest`. -/
def bcW : Blockchain :=
  match buildChain idDigest 0 0 1 [([txW], 0)] with
  | some bc => bc
  | none => { Blocks := [], Difficulty := 0 }

/-- Concrete two-block ledger whose single non-genesis block carries `txA`. -/
def bcA : Blockchain :=
  match buildChain idDigest 0 0 1 [([txA], 0)] with
  | some bc => bc
  | none => { Blocks := [], Difficulty := 0 }

/-- A genesis block whose stored `Hash` is inconsistent with its own
recomputed digest. -/
def badGenesis : Block := { genesisCandidate 0 with Hash := [53] }

/-- A correctly linked and self-consistent successor of `badGenesis` under
`idDigest`. -/
def afterBadGenesis : Block :=
  let base := newBlock badGenesis [] 0
  { base with Hash := calculateHash idDigest base }

/-! ## Properties of the decimal byte encoding -/

theorem natBytesAux_ne_nil (fuel n : Nat) (h1 : n ≠ 0) (h2 : n ≤ fuel) :
    natBytesAux fuel n ≠ [] := by
  cases fuel with
  | zero => omega
  | succ f => simp [natBytesAux, h1]

theorem decVal_append_digit (l : Bytes) (c : Nat) :
    decVal (l ++ [c]) = decVal l * 10 + (c - 48) := by
  simp [decVal, List.foldl_append]

theorem decVal_natBytesAux : ∀ fuel n, n ≤ fuel → decVal (natBytesAux fuel n) = n := by
  intro fuel
  induction fuel with
  | zero =>
    intro n h
    interval_cases n
    simp [natBytesAux, decVal]
  | succ f ih =>
    intro n h
    by_cases hn : n = 0
    · subst hn; simp [natBytesAux, decVal]
    · have hdiv : n / 10 ≤ f := by
        have := Nat.div_lt_self (Nat.pos_of_ne_zero hn) (by norm_num : 1 < 10)
        omega
      have hlt : n % 10 < 10 := Nat.mod_lt _ (by norm_num)
      simp [natBytesAux, hn, decVal_append_digit, ih _ hdiv]
      omega

theorem decVal_natBytes (n : Nat) : decVal (natBytes n) = n := by
  by_cases hn : n = 0
  · subst hn; simp [natBytes, decVal]
  · simp [natBytes, hn, decVal_natBytesAux n n le_rfl]

theorem natBytes_injective : Function.Injective natBytes := by
  intro a b h
  have h2 := congrArg decVal h
  simpa [decVal_natBytes] using h2

theorem natBytesAux_mem (fuel : Nat) : ∀ n c, c ∈ natBytesAux fuel n → 48 ≤ c ∧ c ≤ 57 := by
  induction fuel with
  | zero => intro n c h; simp [natBytesAux] at h
  | succ f ih =>
    intro n c h
    by_cases hn : n = 0
    · simp [natBytesAux, hn] at h
    · simp only [natBytesAux, hn, if_false, List.mem_append, List.mem_singleton] at h
      rcases h with h | h
      · exact ih _ _ h
      · have hlt : n % 10 < 10 := Nat.mod_lt _ (by norm_num)
        omega

theorem natBytes_mem (n c : Nat) (h : c ∈ natBytes n) : 48 ≤ c ∧ c ≤ 57 := by
  by_cases hn : n = 0
  · subst hn; simp [natBytes] at h; omega
  · exact natBytesAux_mem n n c (by simpa [natBytes, hn] using h)

theorem natBytes_ne_nil (n : Nat) : natBytes n ≠ [] := by
  by_cases hn : n = 0
  · subst hn; simp [natBytes]
  · simpa [natBytes, hn] using natBytesAux_ne_nil n n hn le_rfl

theorem intBytes_mem (i : Int) (c : Nat) (h : c ∈ intBytes i) :
    c = 45 ∨ (48 ≤ c ∧ c ≤ 57) := by
  unfold intBytes at h
  split at h
  · rcases List.mem_cons.mp h with h | h
    · exact Or.inl h
    · exact Or.inr (natBytes_mem _ _ h)
  · exact Or.inr (natBytes_mem _ _ h)

theorem intBytes_injective : Function.Injective intBytes := by
  intro a b h
  unfold intBytes at h
  by_cases ha : a < 0 <;> by_cases hb : b < 0 <;> simp [ha, hb] at h
  · have := natBytes_injective h
    omega
  · have h45 := natBytes_mem b.toNat 45 (by rw [← h]; exact List.mem_cons_self _ _)
    omega
  · have h45 := natBytes_mem a.toNat 45 (by rw [h]; exact List.mem_cons_self _ _)
    omega
  · have := natBytes_injective h
    omega

theorem intBytes_not_sep (i : Int) : sepByte ∉ intBytes i := by
  intro h
  have := intBytes_mem i sepByte h
  unfold sepByte at this
  omega

theorem intBytes_not_nl (i : Int) : nlByte ∉ intBytes i := by
  intro h
  have := intBytes_mem i nlByte h
  unfold nlByte at this
  omega

/-! ## Mining lemmas -/

theorem mineAux_eq_some (H : Bytes → Bytes) (b : Block) (target : Bytes) :
    ∀ fuel start h n, mineAux H b target fuel start = some (h, n) →
      start ≤ n ∧ h = calculateHash H { b with Nonce := (n : Int) } ∧
      target.isPrefixOf h = true ∧
      ∀ m, start ≤ m → m < n →
        target.isPrefixOf (calculateHash H { b with Nonce := (m : Int) }) = false := by
  intro fuel
  induction fuel with
  | zero => intro start h n heq; simp [mineAux] at heq
  | succ f ih =>
    intro start h n heq
    simp only [mineAux] at heq
    split at heq
    · rename_i hpre
      rw [Option.some.injEq, Prod.mk.injEq] at heq
      obtain ⟨rfl, rfl⟩ := heq
      exact ⟨le_rfl, rfl, hpre, fun m hm1 hm2 => absurd hm1 (by omega)⟩
    · rename_i hpre
      obtain ⟨h1, h2, h3, h4⟩ := ih _ _ _ heq
      refine ⟨by omega, h2, h3, ?_⟩
      intro m hm1 hm2
      rcases Nat.eq_or_lt_of_le hm1 with rfl | hm
      · exact Bool.eq_false_iff.mpr hpre
      · exact h4 m (by omega) hm2

theorem mineAux_isSome (H : Bytes → Bytes) (b : Block) (target : Bytes) :
    ∀ fuel start n0 : Nat, start ≤ n0 → n0 < start + fuel →
      target.isPrefixOf (calculateHash H { b with Nonce := (n0 : Int) }) = true →
      (mineAux H b target fuel start).isSome = true := by
  intro fuel
  induction fuel with
  | zero => intro start n0 h1 h2 h3; exact absurd h2 (by omega)
  | succ f ih =>
    intro start n0 h1 h2 h3
    by_cases hpre : target.isPrefixOf (calculateHash H { b with Nonce := (start : Int) }) = true
    · simp [mineAux, hpre]
    · rcases Nat.eq_or_lt_of_le h1 with rfl | hlt
      · exact absurd h3 hpre
      · simp only [mineAux, hpre, if_false]
        exact ih (start + 1) n0 (by omega) (by omega) h3

/-! ## Validity bridge lemmas -/

theorem getLast?_cons (g : Block) : ∀ l : List Block, (g :: l).getLast? = some (l.getLastD g) := by
  intro l
  induction l generalizing g with
  | nil => rfl
  | cons c rest ih => rw [List.getLast?_cons_cons, ih c, List.getLastD_cons]

theorem calculateHash_set_hash (H : Bytes → Bytes) (b : Block) (x : Bytes) :
    calculateHash H { b with Hash := x } = calculateHash H b := rfl

theorem isValidFrom_append (H : Bytes → Bytes) (d : Nat) :
    ∀ (l : List Block) (g x : Block),
      isValidFrom H d g (l ++ [x])
        = (isValidFrom H d g l && checkBlock H d (l.getLastD g) x) := by
  intro l
  induction l with
  | nil => intro g x; simp [isValidFrom]
  | cons c rest ih =>
    intro g x
    simp only [List.cons_append, isValidFrom, List.append_eq, List.getLastD_cons, ih c,
      Bool.and_assoc]

theorem isValidFrom_iff_pairChecks (H : Bytes → Bytes) (d : Nat) :
    ∀ (l : List Block) (g : Block),
      isValidFrom H d g l = true ↔ pairChecks H d (g :: l) := by
  intro l
  induction l with
  | nil =>
    intro g
    simp [isValidFrom, pairChecks]
  | cons c rest ih =>
    intro g
    simp only [isValidFrom, Bool.and_eq_true, ih c, pairChecks]
    constructor
    · rintro ⟨h1, h2⟩ i hi
      cases i with
      | zero => simpa using h1
      | succ j =>
        have hj : j + 1 < (c :: rest).length := by
          simp only [List.length_cons] at hi ⊢
          omega
        simpa using h2 j hj
    · intro hall
      refine ⟨?_, ?_⟩
      · simpa using hall 0 (by simp)
      · intro i hi
        have hi2 : (i + 1) + 1 < (g :: c :: rest).length := by
          simp only [List.length_cons] at hi ⊢
          omega
        simpa using hall (i + 1) hi2

theorem isValid_iff_pairChecks (H : Bytes → Bytes) (bc : Blockchain) :
    IsValid H bc = true ↔ pairChecks H bc.Difficulty bc.Blocks := by
  rcases bc with ⟨bs, d⟩
  cases bs with
  | nil =>
    simp only [IsValid, pairChecks]
    simp
  | cons g rest => exact isValidFrom_iff_pairChecks H d rest g

/-! ## Construction lemmas -/

theorem mine_eq_some (H : Bytes → Bytes) (b : Block) (d fuel : Nat) (h : Bytes) (n : Nat)
    (heq : mine H b d fuel = some (h, n)) :
    h = calculateHash H { b with Nonce := (n : Int) } ∧
    (zeroTarget d).isPrefixOf h = true ∧
    ∀ m, m < n →
      (zeroTarget d).isPrefixOf (calculateHash H { b with Nonce := (m : Int) }) = false := by
  obtain ⟨h1, h2, h3, h4⟩ := mineAux_eq_some H b (zeroTarget d) fuel 0 h n heq
  exact ⟨h2, h3, fun m hm => h4 m (Nat.zero_le m) hm⟩

theorem AddBlock_cons (H : Bytes → Bytes) (d : Nat) (g : Block) (l : List Block)
    (txs : List Transaction) (ts : Int) (fuel : Nat) :
    AddBlock H ⟨g :: l, d⟩ txs ts fuel
      = (mine H (newBlock (l.getLastD g) txs ts) d fuel).map (fun p =>
          ⟨(g :: l) ++ [{ newBlock (l.getLastD g) txs ts with Hash := p.1, Nonce := (p.2 : Int) }],
            d⟩) := by
  simp only [AddBlock, getLast?_cons]

theorem AddBlock_preserves (H : Bytes → Bytes) (d : Nat) (g : Block) (l : List Block)
    (bc' : Blockchain) (txs : List Transaction) (ts : Int) (fuel : Nat)
    (heq : AddBlock H ⟨g :: l, d⟩ txs ts fuel = some bc')
    (hv : isValidFrom H d g l = true) :
    ∃ l', bc' = ⟨g :: l', d⟩ ∧ isValidFrom H d g l' = true := by
  rw [AddBlock_cons] at heq
  cases hm : mine H (newBlock (l.getLastD g) txs ts) d fuel with
  | none => rw [hm] at heq; simp at heq
  | some p =>
    rw [hm] at heq
    simp only [Option.map_some', Option.some.injEq] at heq
    obtain ⟨h1, h2, h3⟩ := mine_eq_some H _ d fuel p.1 p.2 hm
    refine ⟨_, heq.symm, ?_⟩
    simp only [List.append_eq]
    rw [isValidFrom_append, hv, Bool.true_and]
    rw [checkBlock, Bool.and_eq_true, Bool.and_eq_true]
    refine ⟨⟨?_, ?_⟩, ?_⟩
    · show ((newBlock (l.getLastD g) txs ts).PrevHash == (l.getLastD g).Hash) = true
      simp [newBlock]
    · show (calculateHash H { newBlock (l.getLastD g) txs ts with Nonce := (p.2 : Int) } == p.1)
        = true
      exact beq_iff_eq.mpr h1.symm
    · show ((zeroTarget d).isPrefixOf p.1) = true
      exact h2

theorem addBlocks_valid (H : Bytes → Bytes) (d : Nat) (fuel : Nat) :
    ∀ (steps : List (List Transaction × Int)) (g : Block) (l : List Block) (bc' : Blockchain),
      addBlocks H fuel ⟨g :: l, d⟩ steps = some bc' →
      isValidFrom H d g l = true →
      ∃ l', bc' = ⟨g :: l', d⟩ ∧ isValidFrom H d g l' = true := by
  intro steps
  induction steps with
  | nil =>
    intro g l bc' heq hv
    simp only [addBlocks, Option.some.injEq] at heq
    exact ⟨l, heq.symm, hv⟩
  | cons s rest ih =>
    intro g l bc' heq hv
    simp only [addBlocks] at heq
    cases ha : AddBlock H ⟨g :: l, d⟩ s.1 s.2 fuel with
    | none => rw [ha] at heq; simp at heq
    | some bc1 =>
      rw [ha] at heq
      obtain ⟨l1, rfl, hv1⟩ := AddBlock_preserves H d g l bc1 s.1 s.2 fuel ha hv
      exact ih g l1 bc' heq hv1

theorem NewBlockchain_some (H : Bytes → Bytes) (d : Nat) (ts : Int) (fuel : Nat)
    (bc : Blockchain) (heq : NewBlockchain H d ts fuel = some bc) :
    ∃ g, bc = ⟨[g], d⟩ := by
  unfold NewBlockchain newGenesisBlock at heq
  cases hm : mine H (genesisCandidate ts) d fuel with
  | none => rw [hm] at heq; simp at heq
  | some p =>
    rw [hm] at heq
    simp only [Option.map_some', Option.some.injEq] at heq
    exact ⟨_, heq.symm⟩

/-- C1. Chain validity round-trip: every ledger built purely via
`NewBlockchain(difficulty)` followed by any finite number of
`AddBlock(txs)` calls (any transaction lists, any difficulty `d ≥ 0`, any
digest function, whenever the mining searches succeed) satisfies
`IsValid() = true`. -/
theorem chain_roundtrip_valid (H : Bytes → Bytes) (d : Nat) (ts0 : Int) (fuel : Nat)
    (steps : List (List Transaction × Int)) (bc : Blockchain)
    (heq : buildChain H d ts0 fuel steps = some bc) :
    IsValid H bc = true := by
  unfold buildChain at heq
  cases hn : NewBlockchain H d ts0 fuel with
  | none => rw [hn] at heq; simp at heq
  | some bc0 =>
    rw [hn] at heq
    obtain ⟨g, rfl⟩ := NewBlockchain_some H d ts0 fuel bc0 hn
    obtain ⟨l', rfl, hv⟩ := addBlocks_valid H d fuel steps g [] bc heq rfl
    simpa [IsValid] using hv

/-- Witness for C1: a concrete two-block ledger built through the API at
difficulty 0 under the identity digest is valid. -/
theorem chain_roundtrip_valid_witness :
    buildChain idDigest 0 0 1 [([txW], 0)] = some bcW ∧ IsValid idDigest bcW = true :=
  ⟨by decide, chain_roundtrip_valid idDigest 0 0 1 [([txW], 0)] bcW (by decide)⟩

/-! ## Structural invariants of constructed chains -/

theorem indicesOK_append (x : Block) :
    ∀ (l : List Block) (k : Int),
      indicesOK k (l ++ [x]) = (indicesOK k l && (x.Index == k + l.length)) := by
  intro l
  induction l with
  | nil => intro k; simp [indicesOK]
  | cons b rest ih =>
    intro k
    have hc : k + 1 + (rest.length : ℤ) = k + ((rest.length : ℤ) + 1) := by ring
    simp only [List.cons_append, List.append_eq, indicesOK, ih (k + 1), List.length_cons,
      Bool.and_assoc, Nat.cast_add, Nat.cast_one, hc]

theorem linksOK_append (x : Block) :
    ∀ (l : List Block) (g : Block),
      linksOK g (l ++ [x]) = (linksOK g l && (x.PrevHash == (l.getLastD g).Hash)) := by
  intro l
  induction l with
  | nil => intro g; simp [linksOK]
  | cons b rest ih =>
    intro g
    simp only [List.cons_append, List.append_eq, linksOK, ih b, List.getLastD_cons,
      Bool.and_assoc]

theorem indicesOK_getLastD :
    ∀ (l : List Block) (g : Block) (k : Int), indicesOK k (g :: l) = true →
      (l.getLastD g).Index = k + l.length := by
  intro l
  induction l with
  | nil =>
    intro g k h
    simp only [indicesOK, Bool.and_eq_true, beq_iff_eq] at h
    simpa using h.1
  | cons c rest ih =>
    intro g k h
    simp only [indicesOK, Bool.and_eq_true] at h
    have := ih c (k + 1) (by simp only [indicesOK, Bool.and_eq_true]; exact h.2)
    rw [List.getLastD_cons, this]
    simp only [List.length_cons]
    push_cast
    ring

theorem indicesOK_getD :
    ∀ (l : List Block) (k : Int), indicesOK k l = true →
      ∀ i, i < l.length → (l.getD i dummyBlock).Index = k + i := by
  intro l
  induction l with
  | nil => intro k _ i hi; simp at hi
  | cons b rest ih =>
    intro k h i hi
    simp only [indicesOK, Bool.and_eq_true, beq_iff_eq] at h
    cases i with
    | zero => simpa using h.1
    | succ j =>
      have := ih (k + 1) h.2 j (by simpa using Nat.lt_of_succ_lt_succ hi)
      simp only [List.getD_cons_succ, this]
      push_cast
      ring

theorem linksOK_getD :
    ∀ (l : List Block) (g : Block), linksOK g l = true →
      ∀ i, i + 1 < (g :: l).length →
        ((g :: l).getD (i + 1) dummyBlock).PrevHash = ((g :: l).getD i dummyBlock).Hash := by
  intro l
  induction l with
  | nil => intro g _ i hi; simp at hi
  | cons c rest ih =>
    intro g h i hi
    simp only [linksOK, Bool.and_eq_true, beq_iff_eq] at h
    cases i with
    | zero => simpa using h.1
    | succ j =>
      have hj : j + 1 < (c :: rest).length := by
        simp only [List.length_cons] at hi ⊢
        omega
      simpa using ih c h.2 j hj

theorem AddBlock_structure (H : Bytes → Bytes) (d : Nat) (g : Block) (l : List Block)
    (bc' : Blockchain) (txs : List Transaction) (ts : Int) (fuel : Nat)
    (heq : AddBlock H ⟨g :: l, d⟩ txs ts fuel = some bc')
    (hidx : indicesOK 0 (g :: l) = true) (hlink : linksOK g l = true) :
    ∃ l', bc' = ⟨g :: l', d⟩ ∧ indicesOK 0 (g :: l') = true ∧ linksOK g l' = true := by
  rw [AddBlock_cons] at heq
  cases hm : mine H (newBlock (l.getLastD g) txs ts) d fuel with
  | none => rw [hm] at heq; simp at heq
  | some p =>
    rw [hm] at heq
    simp only [Option.map_some', Option.some.injEq] at heq
    refine ⟨_, heq.symm, ?_, ?_⟩
    · simp only [List.append_eq]
      rw [← List.cons_append, indicesOK_append, hidx, Bool.true_and, beq_iff_eq]
      show (newBlock (l.getLastD g) txs ts).Index = 0 + ((g :: l).length : ℤ)
      have hlast := indicesOK_getLastD l g 0 hidx
      simp only [newBlock, List.length_cons, hlast]
      push_cast
      ring
    · simp only [List.append_eq]
      rw [linksOK_append, hlink, Bool.true_and, beq_iff_eq]
      show (newBlock (l.getLastD g) txs ts).PrevHash = (l.getLastD g).Hash
      simp [newBlock]

theorem addBlocks_structure (H : Bytes → Bytes) (d : Nat) (fuel : Nat) :
    ∀ (steps : List (List Transaction × Int)) (g : Block) (l : List Block) (bc' : Blockchain),
      addBlocks H fuel ⟨g :: l, d⟩ steps = some bc' →
      indicesOK 0 (g :: l) = true → linksOK g l = true →
      ∃ l', bc' = ⟨g :: l', d⟩ ∧ indicesOK 0 (g :: l') = true ∧ linksOK g l' = true := by
  intro steps
  induction steps with
  | nil =>
    intro g l bc' heq hidx hlink
    simp only [addBlocks, Option.some.injEq] at heq
    exact ⟨l, heq.symm, hidx, hlink⟩
  | cons s rest ih =>
    intro g l bc' heq hidx hlink
    simp only [addBlocks] at heq
    cases ha : AddBlock H ⟨g :: l, d⟩ s.1 s.2 fuel with
    | none => rw [ha] at heq; simp at heq
    | some bc1 =>
      rw [ha] at heq
      obtain ⟨l1, rfl, hidx1, hlink1⟩ := AddBlock_structure H d g l bc1 s.1 s.2 fuel ha hidx hlink
      exact ih g l1 bc' heq hidx1 hlink1

theorem NewBlockchain_structure (H : Bytes → Bytes) (d : Nat) (ts : Int) (fuel : Nat)
    (bc : Blockchain) (heq : NewBlockchain H d ts fuel = some bc) :
    ∃ g, bc = ⟨[g], d⟩ ∧ g.Index = 0 ∧ g.PrevHash = [] := by
  unfold NewBlockchain newGenesisBlock at heq
  cases hm : mine H (genesisCandidate ts) d fuel with
  | none => rw [hm] at heq; simp at heq
  | some p =>
    rw [hm] at heq
    simp only [Option.map_some', Option.some.injEq] at heq
    refine ⟨_, heq.symm, ?_, ?_⟩
    · show (genesisCandidate ts).Index = 0
      simp [genesisCandidate]
    · show (genesisCandidate ts).PrevHash = []
      simp [genesisCandidate]

/-- C7. Monotonic indexing: in every ledger built via `NewBlockchain` and
`AddBlock`, block `i` has index `i`, each block from index 1 on stores the
previous block's hash in `PrevHash`, and the genesis block has index 0 and
an empty `PrevHash`. -/
theorem monotonic_indexing (H : Bytes → Bytes) (d : Nat) (ts0 : Int) (fuel : Nat)
    (steps : List (List Transaction × Int)) (bc : Blockchain)
    (heq : buildChain H d ts0 fuel steps = some bc) :
    bc.Blocks ≠ [] ∧
    (bc.Blocks.getD 0 dummyBlock).Index = 0 ∧
    (bc.Blocks.getD 0 dummyBlock).PrevHash = [] ∧
    (∀ i, i < bc.Blocks.length → (bc.Blocks.getD i dummyBlock).Index = (i : Int)) ∧
    (∀ i, i + 1 < bc.Blocks.length →
      (bc.Blocks.getD (i + 1) dummyBlock).PrevHash = (bc.Blocks.getD i dummyBlock).Hash) := by
  unfold buildChain at heq
  cases hn : NewBlockchain H d ts0 fuel with
  | none => rw [hn] at heq; simp at heq
  | some bc0 =>
    rw [hn] at heq
    obtain ⟨g, rfl, hgidx, hgprev⟩ := NewBlockchain_structure H d ts0 fuel bc0 hn
    have hidx0 : indicesOK 0 [g] = true := by
      simp [indicesOK, hgidx]
    obtain ⟨l', rfl, hidx, hlink⟩ := addBlocks_structure H d fuel steps g [] bc heq hidx0 rfl
    have hIdxAll := indicesOK_getD (g :: l') 0 hidx
    refine ⟨by simp, ?_, by simpa using hgprev, ?_, ?_⟩
    · simpa using hIdxAll 0 (by simp)
    · intro i hi
      simpa using hIdxAll i hi
    · intro i hi
      exact linksOK_getD l' g hlink i hi

/-- Witness for C7 at the concrete two-block ledger `bcW`. -/
theorem monotonic_indexing_witness :
    bcW.Blocks ≠ [] ∧
    (bcW.Blocks.getD 0 dummyBlock).Index = 0 ∧
    (bcW.Blocks.getD 0 dummyBlock).PrevHash = [] ∧
    (bcW.Blocks.getD 1 dummyBlock).Index = 1 ∧
    (bcW.Blocks.getD 1 dummyBlock).PrevHash = (bcW.Blocks.getD 0 dummyBlock).Hash := by
  obtain ⟨h1, h2, h3, h4, h5⟩ :=
    monotonic_indexing idDigest 0 0 1 [([txW], 0)] bcW (by decide)
  exact ⟨h1, h2, h3, h4 1 (by decide), h5 0 (by decide)⟩

/-! ## The validator against the specification's description -/

theorem specValidate_iff_pairChecks (H : Bytes → Bytes) (bs : List Block) (d : Nat) :
    specValidate H ⟨bs, d⟩ = true ↔ pairChecks H d bs := by
  simp only [specValidate, List.range'_eq_map_range, List.all_map, List.all_eq_true,
    List.mem_range, Function.comp]
  constructor
  · intro h i hi
    have h2 := h i (by omega)
    rw [Nat.add_comm 1 i] at h2
    exact h2
  · intro h j hj
    have h2 := h j (by omega)
    rw [Nat.add_comm 1 j]
    exact h2

/-- C2. `IsValid` is exactly the validation pass described by the
specification: iterate the blocks from index 1 to the end, and for each
check, in order, (a) the `PrevHash` link against the preceding block's
`Hash`, (b) that recomputing `calculateHash` with the stored `Nonce` gives
the stored `Hash`, (c) the difficulty target on the stored `Hash`;
it is false as soon as one block fails a check and true when every
non-genesis block passes, in particular on a chain holding only the
genesis block. -/
theorem isValid_eq_specValidate (H : Bytes → Bytes) (bc : Blockchain) :
    IsValid H bc = specValidate H bc := by
  rw [Bool.eq_iff_iff, isValid_iff_pairChecks]
  exact (specValidate_iff_pairChecks H bc.Blocks bc.Difficulty).symm

/-- C6. Genesis is never re-validated: if every block from index 1 on
passes the three per-block checks, `IsValid` is true even when the genesis
block's stored hash disagrees with its recomputed digest or misses the
difficulty target; only the stored genesis hash (through block 1's
`PrevHash` link) matters. -/
theorem genesis_not_revalidated (H : Bytes → Bytes) (d : Nat) (g : Block) (rest : List Block)
    (_hbad : calculateHash H g ≠ g.Hash ∨ (zeroTarget d).isPrefixOf g.Hash = false)
    (hrest : ∀ i, i < rest.length →
      checkBlock H d ((g :: rest).getD i dummyBlock) (rest.getD i dummyBlock) = true) :
    IsValid H ⟨g :: rest, d⟩ = true := by
  rw [isValid_iff_pairChecks]
  intro i hi
  have hi2 : i < rest.length := by
    simp only [List.length_cons] at hi
    omega
  simpa using hrest i hi2

/-- Witness for C6: a two-block chain whose genesis stores a hash that is
not its own digest still validates. -/
theorem genesis_not_revalidated_witness :
    calculateHash idDigest badGenesis ≠ badGenesis.Hash ∧
    IsValid idDigest ⟨[badGenesis, afterBadGenesis], 0⟩ = true :=
  ⟨by decide,
    genesis_not_revalidated idDigest 0 badGenesis [afterBadGenesis] (Or.inl (by decide))
      (by decide)⟩

/-- C10. `calculateHash` does not read the stored `Hash` field: two blocks
agreeing on `Index`, `Timestamp`, `PrevHash`, `Nonce` and `Transactions`
hash identically however their `Hash` fields differ, which is what makes
the validator's recomputation check meaningful. -/
theorem calculateHash_ignores_hash (H : Bytes → Bytes) (b b' : Block)
    (h1 : b'.Index = b.Index) (h2 : b'.Timestamp = b.Timestamp) (h3 : b'.PrevHash = b.PrevHash)
    (h4 : b'.Nonce = b.Nonce) (h5 : b'.Transactions = b.Transactions) :
    calculateHash H b' = calculateHash H b := by
  unfold calculateHash blockContent
  rw [h1, h2, h3, h4, h5]

/-- Witness for C10: changing only the stored hash leaves the digest
unchanged. -/
theorem calculateHash_ignores_hash_witness :
    dummyBlock.Hash ≠ ({ dummyBlock with Hash := [49] } : Block).Hash ∧
    calculateHash idDigest { dummyBlock with Hash := [49] } = calculateHash idDigest dummyBlock :=
  ⟨by decide,
    calculateHash_ignores_hash idDigest dummyBlock { dummyBlock with Hash := [49] }
      rfl rfl rfl rfl rfl⟩

/-- C3. Mining correctness and minimality: whenever some nonce `n0` (within
the fuel bound) yields a digest meeting the difficulty target, `mine`
succeeds and returns a pair `(h, n)` where `h` is the digest of the block
at nonce `n`, `h` meets the target, `n` is the smallest nonce whose digest
meets the target (the search starts at 0 and increments by 1), and for
difficulty 0 the search returns at nonce 0. -/
theorem mine_correct (H : Bytes → Bytes) (b : Block) (d fuel n0 : Nat)
    (h0 : (zeroTarget d).isPrefixOf (calculateHash H { b with Nonce := (n0 : Int) }) = true)
    (hfuel : n0 < fuel) :
    ∃ h n, mine H b d fuel = some (h, n) ∧
      h = calculateHash H { b with Nonce := (n : Int) } ∧
      (zeroTarget d).isPrefixOf h = true ∧
      (∀ m, m < n →
        (zeroTarget d).isPrefixOf (calculateHash H { b with Nonce := (m : Int) }) = false) ∧
      (d = 0 → n = 0) := by
  have hsome := mineAux_isSome H b (zeroTarget d) fuel 0 n0 (Nat.zero_le n0) (by omega) h0
  rw [Option.isSome_iff_exists] at hsome
  obtain ⟨p, hp⟩ := hsome
  obtain ⟨h1, h2, h3⟩ := mine_eq_some H b d fuel p.1 p.2 hp
  refine ⟨p.1, p.2, hp, h1, h2, h3, ?_⟩
  intro hd
  by_contra hne
  have hmin := h3 0 (Nat.pos_of_ne_zero hne)
  rw [hd] at hmin
  simp [zeroTarget] at hmin

/-- Witness for C3 at difficulty 0 under the identity digest. -/
theorem mine_correct_witness :
    (zeroTarget 0).isPrefixOf
        (calculateHash idDigest { genesisCandidate 0 with Nonce := ((0 : Nat) : Int) }) = true ∧
    (∃ h n, mine idDigest (genesisCandidate 0) 0 1 = some (h, n) ∧
      h = calculateHash idDigest { genesisCandidate 0 with Nonce := (n : Int) } ∧
      (zeroTarget 0).isPrefixOf h = true ∧
      (∀ m, m < n →
        (zeroTarget 0).isPrefixOf
          (calculateHash idDigest { genesisCandidate 0 with Nonce := (m : Int) }) = false) ∧
      (0 = 0 → n = 0)) :=
  ⟨by decide, mine_correct idDigest (genesisCandidate 0) 0 1 0 (by decide) (by decide)⟩

/-- C4. Canonical encoding format: the hashed bytes are exactly decimal
`Index`, separator, decimal `Timestamp`, separator, `PrevHash`, separator,
the transaction encoding (per transaction: `From`, separator, `To`,
separator, decimal `Amount`, terminator), separator, decimal `Nonce`, in
this fixed order with every field included, so changing the index, the
timestamp, the previous hash, the encoded transaction bytes, or the nonce
(each with all other fields fixed) changes the encoder output. -/
theorem blockContent_format (b : Block) (i' t' : Int) (ph' : Bytes) (txs' : List Transaction)
    (n' : Int) :
    blockContent b
      = intBytes b.Index ++ [sepByte] ++ intBytes b.Timestamp ++ [sepByte] ++ b.PrevHash
          ++ [sepByte] ++ serializeTransactions b.Transactions ++ [sepByte] ++ intBytes b.Nonce ∧
    serializeTransactions b.Transactions
      = (b.Transactions.map fun tx =>
          tx.From ++ [sepByte] ++ tx.To ++ [sepByte] ++ intBytes tx.Amount ++ [nlByte]).flatten ∧
    (i' ≠ b.Index → blockContent { b with Index := i' } ≠ blockContent b) ∧
    (t' ≠ b.Timestamp → blockContent { b with Timestamp := t' } ≠ blockContent b) ∧
    (ph' ≠ b.PrevHash → blockContent { b with PrevHash := ph' } ≠ blockContent b) ∧
    (serializeTransactions txs' ≠ serializeTransactions b.Transactions →
      blockContent { b with Transactions := txs' } ≠ blockContent b) ∧
    (n' ≠ b.Nonce → blockContent { b with Nonce := n' } ≠ blockContent b) := by
  refine ⟨rfl, rfl, ?_, ?_, ?_, ?_, ?_⟩
  · intro hne hc
    apply hne
    simp only [blockContent, List.append_assoc, List.append_right_inj] at hc
    exact intBytes_injective (List.append_cancel_right hc)
  · intro hne hc
    apply hne
    simp only [blockContent, List.append_assoc, List.append_right_inj] at hc
    exact intBytes_injective (List.append_cancel_right hc)
  · intro hne hc
    apply hne
    simp only [blockContent, List.append_assoc, List.append_right_inj] at hc
    exact List.append_cancel_right hc
  · intro hne hc
    apply hne
    simp only [blockContent, List.append_assoc, List.append_right_inj] at hc
    exact List.append_cancel_right hc
  · intro hne hc
    apply hne
    simp only [blockContent, List.append_assoc, List.append_right_inj] at hc
    exact intBytes_injective hc

/-- Witness for C4: each single-field change at a concrete block changes
the encoder output. -/
theorem blockContent_format_witness :
    blockContent { dummyBlock with Index := 1 } ≠ blockContent dummyBlock ∧
    blockContent { dummyBlock with Timestamp := 2 } ≠ blockContent dummyBlock ∧
    blockContent { dummyBlock with PrevHash := [48] } ≠ blockContent dummyBlock ∧
    blockContent { dummyBlock with Transactions := [txW] } ≠ blockContent dummyBlock ∧
    blockContent { dummyBlock with Nonce := 3 } ≠ blockContent dummyBlock := by
  obtain ⟨-, -, h1, h2, h3, h4, h5⟩ := blockContent_format dummyBlock 1 2 [48] [txW] 3
  exact ⟨h1 (by decide), h2 (by decide), h3 (by decide), h4 (by decide), h5 (by decide)⟩

/-! ## Encoding injectivity for delimiter-free fields -/

theorem append_delim_split (s : Nat) :
    ∀ (a c b d : Bytes), s ∉ a → s ∉ c → a ++ s :: b = c ++ s :: d → a = c ∧ b = d := by
  intro a
  induction a with
  | nil =>
    intro c b d _ hc h
    cases c with
    | nil => exact ⟨rfl, by simpa using h⟩
    | cons y c2 =>
      simp only [List.nil_append, List.cons_append] at h
      obtain ⟨rfl, -⟩ := List.cons.inj h
      exact absurd (List.mem_cons_self _ _) hc
  | cons x a2 ih =>
    intro c b d ha hc h
    cases c with
    | nil =>
      simp only [List.nil_append, List.cons_append] at h
      obtain ⟨rfl, -⟩ := List.cons.inj h
      exact absurd (List.mem_cons_self _ _) ha
    | cons y c2 =>
      simp only [List.cons_append] at h
      obtain ⟨rfl, h2⟩ := List.cons.inj h
      have ha2 : s ∉ a2 := fun hm => ha (List.mem_cons_of_mem _ hm)
      have hc2 : s ∉ c2 := fun hm => hc (List.mem_cons_of_mem _ hm)
      obtain ⟨h3, h4⟩ := ih c2 b d ha2 hc2 h2
      exact ⟨by rw [h3], h4⟩

theorem serializeTransactions_cons (tx : Transaction) (rest : List Transaction) :
    serializeTransactions (tx :: rest)
      = tx.From ++ [sepByte] ++ tx.To ++ [sepByte] ++ intBytes tx.Amount ++ [nlByte]
          ++ serializeTransactions rest := by
  simp [serializeTransactions]

theorem serializeTransactions_cons_ne_nil (tx : Transaction) (rest : List Transaction) :
    serializeTransactions (tx :: rest) ≠ [] := by
  rw [serializeTransactions_cons]
  simp

/-- C8. Encoding injectivity for delimiter-free fields: two transaction
lists whose `From`/`To` bytes avoid the separator byte `'|'` and the
terminator byte `'\n'` serialize to the same byte sequence only if they
are equal (same length, order and fields). -/
theorem serializeTransactions_injective :
    ∀ (txs1 txs2 : List Transaction),
      (∀ tx ∈ txs1, sepByte ∉ tx.From ∧ nlByte ∉ tx.From ∧ sepByte ∉ tx.To ∧ nlByte ∉ tx.To) →
      (∀ tx ∈ txs2, sepByte ∉ tx.From ∧ nlByte ∉ tx.From ∧ sepByte ∉ tx.To ∧ nlByte ∉ tx.To) →
      serializeTransactions txs1 = serializeTransactions txs2 → txs1 = txs2 := by
  intro txs1
  induction txs1 with
  | nil =>
    intro txs2 _ _ h
    cases txs2 with
    | nil => rfl
    | cons ty rest2 => exact absurd h.symm (serializeTransactions_cons_ne_nil ty rest2)
  | cons tx rest ih =>
    intro txs2 h1 h2 h
    cases txs2 with
    | nil => exact absurd h (serializeTransactions_cons_ne_nil tx rest)
    | cons ty rest2 =>
      rw [serializeTransactions_cons, serializeTransactions_cons] at h
      simp only [List.append_assoc, List.singleton_append] at h
      obtain ⟨hf1, -, hf3, -⟩ := h1 tx (List.mem_cons_self _ _)
      obtain ⟨hg1, -, hg3, -⟩ := h2 ty (List.mem_cons_self _ _)
      obtain ⟨hFrom, h⟩ := append_delim_split sepByte _ _ _ _ hf1 hg1 h
      obtain ⟨hTo, h⟩ := append_delim_split sepByte _ _ _ _ hf3 hg3 h
      obtain ⟨hAmt, h⟩ :=
        append_delim_split nlByte _ _ _ _ (intBytes_not_nl tx.Amount) (intBytes_not_nl ty.Amount)
          h
      have hAmount := intBytes_injective hAmt
      have hrest := ih rest2 (fun t ht => h1 t (List.mem_cons_of_mem _ ht))
        (fun t ht => h2 t (List.mem_cons_of_mem _ ht)) h
      have htx : tx = ty := by
        cases tx
        cases ty
        simp only at hFrom hTo hAmount
        simp [hFrom, hTo, hAmount]
      rw [htx, hrest]

/-- Witness for C8 at a concrete delimiter-free list. -/
theorem serializeTransactions_injective_witness :
    (∀ tx ∈ [txW], sepByte ∉ tx.From ∧ nlByte ∉ tx.From ∧ sepByte ∉ tx.To ∧ nlByte ∉ tx.To) ∧
    ([txW] : List Transaction) = [txW] :=
  ⟨by decide, serializeTransactions_injective [txW] [txW] (by decide) (by decide) rfl⟩

/-! ## Tamper detection -/

/-- C5 (amended). Tamper detection: in a valid ledger, replacing a single
non-genesis block by one that differs only in `PrevHash`, only in `Hash`,
or only in `Transactions` — the latter provided the new transaction list
serializes to different bytes and the digest does not collide on the two
block encodings — makes `IsValid` false. (The provisos are forced by the
counterexample: unescaped delimiters let distinct transaction lists encode
identically, and then the recomputed digest cannot change.) -/
theorem tamper_detection (H : Bytes → Bytes) (d : Nat) (bs bs' : List Block) (i : Nat)
    (hge : 1 ≤ i) (hlt : i < bs.length)
    (hlen : bs'.length = bs.length)
    (hother : ∀ j, j < bs.length → j ≠ i → bs'.getD j dummyBlock = bs.getD j dummyBlock)
    (hvalid : IsValid H ⟨bs, d⟩ = true)
    (hdiff :
      ((bs'.getD i dummyBlock).Index = (bs.getD i dummyBlock).Index ∧
        (bs'.getD i dummyBlock).Timestamp = (bs.getD i dummyBlock).Timestamp ∧
        (bs'.getD i dummyBlock).PrevHash = (bs.getD i dummyBlock).PrevHash ∧
        (bs'.getD i dummyBlock).Hash = (bs.getD i dummyBlock).Hash ∧
        (bs'.getD i dummyBlock).Nonce = (bs.getD i dummyBlock).Nonce ∧
        serializeTransactions (bs'.getD i dummyBlock).Transactions
          ≠ serializeTransactions (bs.getD i dummyBlock).Transactions ∧
        calculateHash H (bs'.getD i dummyBlock) ≠ calculateHash H (bs.getD i dummyBlock)) ∨
      ((bs'.getD i dummyBlock).Index = (bs.getD i dummyBlock).Index ∧
        (bs'.getD i dummyBlock).Timestamp = (bs.getD i dummyBlock).Timestamp ∧
        (bs'.getD i dummyBlock).PrevHash ≠ (bs.getD i dummyBlock).PrevHash ∧
        (bs'.getD i dummyBlock).Hash = (bs.getD i dummyBlock).Hash ∧
        (bs'.getD i dummyBlock).Nonce = (bs.getD i dummyBlock).Nonce ∧
        (bs'.getD i dummyBlock).Transactions = (bs.getD i dummyBlock).Transactions) ∨
      ((bs'.getD i dummyBlock).Index = (bs.getD i dummyBlock).Index ∧
        (bs'.getD i dummyBlock).Timestamp = (bs.getD i dummyBlock).Timestamp ∧
        (bs'.getD i dummyBlock).PrevHash = (bs.getD i dummyBlock).PrevHash ∧
        (bs'.getD i dummyBlock).Hash ≠ (bs.getD i dummyBlock).Hash ∧
        (bs'.getD i dummyBlock).Nonce = (bs.getD i dummyBlock).Nonce ∧
        (bs'.getD i dummyBlock).Transactions = (bs.getD i dummyBlock).Transactions)) :
    IsValid H ⟨bs', d⟩ = false := by
  by_contra hne
  have htrue : IsValid H ⟨bs', d⟩ = true := by
    cases hb : IsValid H ⟨bs', d⟩
    · exact absurd hb hne
    · rfl
  have hpairs := (isValid_iff_pairChecks H ⟨bs, d⟩).mp hvalid
  have hpairs' := (isValid_iff_pairChecks H ⟨bs', d⟩).mp htrue
  obtain ⟨j, rfl⟩ : ∃ j, i = j + 1 := ⟨i - 1, by omega⟩
  have hc := hpairs j (show j + 1 < bs.length by omega)
  have hc' := hpairs' j (show j + 1 < bs'.length by omega)
  have hprev : bs'.getD j dummyBlock = bs.getD j dummyBlock := hother j (by omega) (by omega)
  simp only [checkBlock, Bool.and_eq_true, beq_iff_eq] at hc hc'
  obtain ⟨⟨hc1, hc2⟩, -⟩ := hc
  obtain ⟨⟨hc1', hc2'⟩, -⟩ := hc'
  rcases hdiff with ⟨-, -, -, e4, -, -, hcoll⟩ | ⟨-, -, hph, -, -, -⟩
    | ⟨e1, e2, e3, hh, e5, e6⟩
  · exact hcoll (by rw [hc2', e4, hc2])
  · exact hph (by rw [hc1', hprev, ← hc1])
  · apply hh
    have hcongr : calculateHash H (bs'.getD (j + 1) dummyBlock)
        = calculateHash H (bs.getD (j + 1) dummyBlock) := by
      unfold calculateHash blockContent
      rw [e1, e2, e3, e5, e6]
    rw [← hc2', hcongr, hc2]

/-- Counterexample to C5 as stated: in a valid ledger built through the
API, replacing block 1's transactions `[txA]` by the different list
`[txB]` — all other fields and blocks unchanged — leaves `IsValid` true,
because the two lists serialize to the same bytes (the delimiters inside
`From`/`To` are not escaped), so the recomputed digest is unchanged. -/
theorem tamper_detection_counterexample :
    buildChain idDigest 0 0 1 [([txA], 0)] = some bcA ∧
    IsValid idDigest bcA = true ∧
    ([txB] : List Transaction) ≠ [txA] ∧
    (tamperTxs bcA 1 [txB]).Difficulty = bcA.Difficulty ∧
    (tamperTxs bcA 1 [txB]).Blocks.length = bcA.Blocks.length ∧
    (tamperTxs bcA 1 [txB]).Blocks.getD 0 dummyBlock = bcA.Blocks.getD 0 dummyBlock ∧
    ((tamperTxs bcA 1 [txB]).Blocks.getD 1 dummyBlock).Index
      = (bcA.Blocks.getD 1 dummyBlock).Index ∧
    ((tamperTxs bcA 1 [txB]).Blocks.getD 1 dummyBlock).Timestamp
      = (bcA.Blocks.getD 1 dummyBlock).Timestamp ∧
    ((tamperTxs bcA 1 [txB]).Blocks.getD 1 dummyBlock).PrevHash
      = (bcA.Blocks.getD 1 dummyBlock).PrevHash ∧
    ((tamperTxs bcA 1 [txB]).Blocks.getD 1 dummyBlock).Hash
      = (bcA.Blocks.getD 1 dummyBlock).Hash ∧
    ((tamperTxs bcA 1 [txB]).Blocks.getD 1 dummyBlock).Nonce
      = (bcA.Blocks.getD 1 dummyBlock).Nonce ∧
    ((tamperTxs bcA 1 [txB]).Blocks.getD 1 dummyBlock).Transactions = [txB] ∧
    (bcA.Blocks.getD 1 dummyBlock).Transactions = [txA] ∧
    IsValid idDigest (tamperTxs bcA 1 [txB]) = true := by
  decide

/-- Witness for the amended C5: emptying block 1's transaction list (whose
serialization differs) in the concrete valid ledger `bcW` breaks
validation, under the injective concrete digest. -/
theorem tamper_detection_witness :
    IsValid idDigest ⟨bcW.Blocks, 0⟩ = true ∧
    IsValid idDigest ⟨(tamperTxs bcW 1 []).Blocks, 0⟩ = false :=
  ⟨by decide,
    tamper_detection idDigest 0 bcW.Blocks (tamperTxs bcW 1 []).Blocks 1
      (by decide) (by decide) (by decide) (by decide) (by decide)
      (Or.inl ⟨by decide, by decide, by decide, by decide, by decide, by decide,
        by decide⟩)⟩

/-! ## Negative difficulty -/

theorem flatten_replicate_single (n : Nat) :
    List.flatten (List.replicate n [(48 : Nat)]) = List.replicate n (48 : Nat) := by
  induction n with
  | zero => rfl
  | succ k ih => simp [List.replicate_succ, ih]

/-- C9. Negative difficulty is not guarded: for every negative difficulty,
`NewBlockchain` performs no check of its own and proceeds into `mine`,
whose very first statement (`strings.Repeat`) raises Go's negative-count
panic — the error surfacing from ledger creation is exactly the one
produced inside mining; and for every non-negative difficulty the raw-int
pipeline agrees with the total model, i.e. completes without any error
(mining termination itself being the separate liveness caveat the
specification notes). -/
theorem negative_difficulty_unguarded (H : Bytes → Bytes) (ts : Int) (fuel : Nat)
    (dneg dok : Int) (hneg : dneg < 0) (hok : 0 ≤ dok) :
    NewBlockchainE H dneg ts fuel = Except.error "strings: negative Repeat count" ∧
    mineE H (genesisCandidate ts) dneg fuel = Except.error "strings: negative Repeat count" ∧
    NewBlockchainE H dok ts fuel = Except.ok (NewBlockchain H dok.toNat ts fuel) := by
  have hmneg : mineE H (genesisCandidate ts) dneg fuel
      = Except.error "strings: negative Repeat count" := by
    unfold mineE stringsRepeat
    rw [if_pos hneg]
  have hrep : stringsRepeat [48] dok = Except.ok (zeroTarget dok.toNat) := by
    unfold stringsRepeat
    rw [if_neg (by omega), flatten_replicate_single]
    rfl
  have hmok : ∀ b, mineE H b dok fuel = Except.ok (mine H b dok.toNat fuel) := by
    intro b
    unfold mineE
    rw [hrep]
    rfl
  refine ⟨?_, hmneg, ?_⟩
  · unfold NewBlockchainE newGenesisBlockE
    rw [hmneg]
  · unfold NewBlockchainE newGenesisBlockE
    rw [hmok (genesisCandidate ts)]
    cases hm : mine H (genesisCandidate ts) dok.toNat fuel with
    | none => simp [NewBlockchain, newGenesisBlock, hm]
    | some p => simp [NewBlockchain, newGenesisBlock, hm]

/-- Witness for C9 at difficulties `-1` and `0`. -/
theorem negative_difficulty_unguarded_witness :
    ((-1 : Int) < 0) ∧ ((0 : Int) ≤ 0) ∧
    (NewBlockchainE idDigest (-1) 0 1 = Except.error "strings: negative Repeat count" ∧
      mineE idDigest (genesisCandidate 0) (-1) 1
        = Except.error "strings: negative Repeat count" ∧
      NewBlockchainE idDigest 0 0 1 = Except.ok (NewBlockchain idDigest ((0 : Int)).toNat 0 1)) :=
  ⟨by decide, by decide,
    negative_difficulty_unguarded idDigest 0 1 (-1) 0 (by decide) (by decide)⟩

end BCDemo
